import Mathlib

/-!
# NVLeak secure allocation: page field and bounded retry loop

A shallow embedding of `include/libpmemobj++/secure_alloc.hpp` (namespace `nvleak`)
and the properties of its page-field membership test and of the rejection-sampling
loop `secure_alloc`.

Conventions of the embedding

* `size_t` values are natural numbers; the one explicit conversion of the source,
  `(size_t)res.off`, is `size_t_cast` (reduction modulo `2 ^ 64`).
* `std::bitset<N>` is a function `Fin N → Bool`. `set(pos, val)` throws
  `std::out_of_range` for `pos ≥ N`; the unchecked `operator[]` takes the proof that
  the position is in range.
* The callable `f` of `secure_alloc` is side-effecting: it is given as the sequence of
  the results of its successive invocations, `f n` being what the `n`-th invocation
  (counted from 1) returns. The number of invocations made is recorded in the run.
* `std::cout` is the list of the reports written to it.
* `assert` is the macro of `<cassert>`: what it does depends on whether `NDEBUG` is
  defined where the header is compiled, which the sources do not settle. The build is
  a parameter `NDEBUG` of `secure_alloc`. Without `NDEBUG` a failing assertion aborts
  the process (nothing is returned or thrown to the caller); with `NDEBUG` the
  assertion is no code at all.
-/

namespace nvleak

/-! ## Constants -/

/-- Source: `constexpr size_t page_shift{12};` -/
def page_shift : Nat := 12

/-- Source: `constexpr size_t total_nvsec_sets{256};` -/
def total_nvsec_sets : Nat := 256

/-- Source: `constexpr size_t max_try_secure_alloc = (total_nvsec_sets << page_shift);` -/
def max_try_secure_alloc : Nat := total_nvsec_sets <<< page_shift

/-- Conversion of a non-negative integer to the 64-bit `size_t`. -/
def size_t_cast (n : Nat) : Nat := n % 2 ^ 64

/-! ## Exceptions -/

/-- The exceptions the header can raise: `std::out_of_range` (from `std::bitset::set`)
and `std::runtime_error` with its message. -/
inductive exn where
  | out_of_range
  | runtime_error (what : String)
  deriving DecidableEq

/-! ## `std::bitset<N>` -/

/-- A `std::bitset<N>`: one boolean per position `0 .. N-1`. -/
structure bitset (N : Nat) where
  bits : Fin N → Bool

namespace bitset

variable {N : Nat}

/-- The value-initialised bitset (all bits clear). -/
def zero : bitset N := ⟨fun _ => false⟩

/-- Method `reset()`: clears every bit. -/
def reset (_self : bitset N) : bitset N := ⟨fun _ => false⟩

/-- Method `size()`. -/
def size (_self : bitset N) : Nat := N

/-- Method `count()`: the number of bits that are set. -/
def count (self : bitset N) : Nat := (List.finRange N).countP (fun i => self.bits i)

/-- Method `set(pos, val)`: throws `std::out_of_range` when `pos` is not a valid
position, otherwise writes `val` at `pos`. -/
def set (self : bitset N) (pos : Nat) (val : Bool) : Except exn (bitset N) :=
  if h : pos < N then .ok ⟨Function.update self.bits ⟨pos, h⟩ val⟩
  else .error exn.out_of_range

/-- The unchecked `operator[]` on a const bitset: defined only for `pos < N`. -/
def index (self : bitset N) (pos : Nat) (h : pos < N) : Bool := self.bits ⟨pos, h⟩

end bitset

/-! ## `class page_field` -/

/-- Source: `class page_field` with its public member `fields`. -/
structure page_field where
  fields : bitset total_nvsec_sets

/-- The `for` loop of `page_field::set_fields`:
`for (auto curr = beg; curr < end; curr++) this->fields.set(curr, true);`
An exception of `set` leaves the loop. -/
def set_fields_for (fields : bitset total_nvsec_sets) (curr end_ : Nat) :
    Except exn (bitset total_nvsec_sets) :=
  if curr < end_ then
    match fields.set curr true with
    | .ok fields1 => set_fields_for fields1 (curr + 1) end_
    | .error e => .error e
  else .ok fields
termination_by end_ - curr

namespace page_field

/-- Source: `void set_fields(size_t beg, size_t end)`: sets fields `[beg:end)`. -/
def set_fields (self : page_field) (beg end_ : Nat) : Except exn page_field :=
  match set_fields_for self.fields beg end_ with
  | .ok fields1 => .ok ⟨fields1⟩
  | .error e => .error e

/-- Source: the default constructor `page_field()`:
`fields.reset(); set_fields(0, fields.size() / 2);` -/
def mk_default : Except exn page_field :=
  let self : page_field := ⟨bitset.zero⟩
  let self : page_field := ⟨self.fields.reset⟩
  self.set_fields 0 (self.fields.size / 2)

/-- Source: the constructor `page_field(size_t beg, size_t end)`:
`fields.reset(); set_fields(beg, end);` -/
def mk_range (beg end_ : Nat) : Except exn page_field :=
  let self : page_field := ⟨bitset.zero⟩
  let self : page_field := ⟨self.fields.reset⟩
  self.set_fields beg end_

/-- Source: `const bool check_ptr(size_t ptr) const`:
`auto page_ofs = ptr >> page_shift; return this->fields[(page_ofs % total_nvsec_sets)];` -/
def check_ptr (self : page_field) (ptr : Nat) : Bool :=
  let page_ofs := ptr >>> page_shift
  self.fields.index (page_ofs % total_nvsec_sets) (Nat.mod_lt page_ofs (by decide))

end page_field

/-! ## `secure_alloc` -/

/-- The result type of the callable: any type with a numeric member `off`. -/
class has_off (R : Type) where
  off : R → Nat

/-- One line written to `std::cout` by `secure_alloc`:
`secure_alloc: tried [count] allocs, finalized at: [off]`. -/
structure report where
  count : Nat
  off : Nat
  deriving DecidableEq

/-- How a call of `secure_alloc` ends: it returns a result, it throws an exception to
its caller, or a failed `assert` aborts the process. -/
inductive outcome (R : Type) where
  | returned (res : R)
  | thrown (e : exn)
  | assert_failed
  deriving DecidableEq

/-- What a call of `secure_alloc` has done when it ends: how it ended, how many times
the callable was invoked, the value of the local `count`, and what it wrote to
`std::cout`. -/
structure run (R : Type) where
  result : outcome R
  calls : Nat
  count : Nat
  cout : List report

/-- The process-wide state of the header: `static bool verbose_output_alloc`. -/
structure globals where
  verbose_output_alloc : Bool

/-- Source: `static bool verbose_output_alloc = false;` -/
def globals.initial : globals := ⟨false⟩

/-- Source: `void set_alloc_print(bool verbose) { verbose_output_alloc = verbose; }` -/
def set_alloc_print (verbose : Bool) (_g : globals) : globals := ⟨verbose⟩

/-- The `do ... while` loop of `secure_alloc`, entered with `calls` invocations of `f`
made so far and the local variable `count`:
```
do {
    res = f(args...);
    count++;
    if (count > max_try_secure_alloc)
        throw std::runtime_error("Secure alloc reached max try.");
} while (!(pf.check_ptr((size_t)res.off)));
```
-/
def secure_alloc_do_while {R : Type} [has_off R] (f : Nat → R) (pf : page_field)
    (calls count : Nat) : run R :=
  let calls := calls + 1
  let res := f calls
  let count := count + 1
  if count > max_try_secure_alloc then
    ⟨.thrown (.runtime_error "Secure alloc reached max try."), calls, count, []⟩
  else if !(pf.check_ptr (size_t_cast (has_off.off res))) then
    secure_alloc_do_while f pf calls count
  else
    ⟨.returned res, calls, count, []⟩
termination_by max_try_secure_alloc + 1 - count

/-- Source: `secure_alloc(F &&f, const page_field &pf, Args &&...args)`.
`NDEBUG` tells whether the macro of that name is defined in the build: the first
statement, `assert(pf.fields.count() > 0);`, is checked only when it is not. -/
def secure_alloc {R : Type} [has_off R] (NDEBUG : Bool) (g : globals) (f : Nat → R)
    (pf : page_field) : run R :=
  if NDEBUG = false ∧ ¬ (pf.fields.count > 0) then
    ⟨.assert_failed, 0, 0, []⟩
  else
    let r := secure_alloc_do_while f pf 0 0
    match r.result with
    | .returned res =>
      if g.verbose_output_alloc then
        ⟨.returned res, r.calls, r.count, r.cout ++ [⟨r.count, has_off.off res⟩]⟩
      else
        ⟨.returned res, r.calls, r.count, r.cout⟩
    | other => ⟨other, r.calls, r.count, r.cout⟩

/-- A minimal result type: just the member `off`. -/
structure placement where
  off : Nat
  deriving DecidableEq

instance : has_off placement := ⟨placement.off⟩

/-! ## Auxiliary definitions used in the statements -/

/-- The exception thrown by the retry loop. -/
def max_try_error : exn := exn.runtime_error "Secure alloc reached max try."

/-- The page field with exactly the slots of `[beg, end_)` set. -/
def range_field (beg end_ : Nat) : page_field :=
  ⟨⟨fun i => decide (beg ≤ i.val ∧ i.val < end_)⟩⟩

/-- What holds of every run of the loop, whatever the field and the callable. -/
structure loop_post {R : Type} [has_off R] (f : Nat → R) (pf : page_field)
    (calls count : Nat) (r : run R) : Prop where
  cout_nil : r.cout = []
  count_gt : count < r.count
  count_le : r.count ≤ max_try_secure_alloc + 1
  calls_eq : r.calls + count = calls + r.count
  ended : (r.result = .thrown max_try_error ∧ r.count = max_try_secure_alloc + 1) ∨
    (r.result = .returned (f r.calls) ∧ r.count ≤ max_try_secure_alloc ∧
      pf.check_ptr (has_off.off (f r.calls)) = true)

open page_field

/-! ## Facts about the page field -/

/-- The position read by `check_ptr` is a valid bit position. -/
theorem page_field.slot_lt (page_ofs : Nat) :
    page_ofs % total_nvsec_sets < total_nvsec_sets :=
  Nat.mod_lt _ (by decide)

theorem max_try_secure_alloc_eq : max_try_secure_alloc = 1048576 := by decide

theorem check_ptr_congr (pf : page_field) (o1 o2 : Nat)
    (h : (o1 >>> page_shift) % total_nvsec_sets = (o2 >>> page_shift) % total_nvsec_sets) :
    pf.check_ptr o1 = pf.check_ptr o2 := by
  unfold page_field.check_ptr bitset.index
  exact congrArg pf.fields.bits (Fin.ext h)

theorem check_ptr_size_t_cast (pf : page_field) (n : Nat) :
    pf.check_ptr (size_t_cast n) = pf.check_ptr n := by
  apply check_ptr_congr
  simp only [size_t_cast, page_shift, total_nvsec_sets, Nat.shiftRight_eq_div_pow]
  omega

theorem set_fields_for_ge (fields : bitset total_nvsec_sets) (curr end_ : Nat)
    (h : end_ ≤ curr) : set_fields_for fields curr end_ = .ok fields := by
  rw [set_fields_for, if_neg (by omega)]

theorem set_fields_for_ok (end_ : Nat) (hend : end_ ≤ total_nvsec_sets) :
    ∀ (d curr : Nat) (fields : bitset total_nvsec_sets), curr + d = end_ →
      ∃ fs, set_fields_for fields curr end_ = .ok fs ∧
        ∀ i : Fin total_nvsec_sets,
          fs.bits i = (decide (curr ≤ i.val ∧ i.val < end_) || fields.bits i) := by
  intro d
  induction d with
  | zero =>
    intro curr fields h
    refine ⟨fields, set_fields_for_ge fields curr end_ (by omega), ?_⟩
    intro i
    have : ¬ (curr ≤ i.val ∧ i.val < end_) := by omega
    simp [this]
  | succ d ih =>
    intro curr fields h
    have hlt : curr < end_ := by omega
    have hN : curr < total_nvsec_sets := by omega
    obtain ⟨fs, hfs, hbits⟩ :=
      ih (curr + 1) ⟨Function.update fields.bits ⟨curr, hN⟩ true⟩ (by omega)
    refine ⟨fs, ?_, ?_⟩
    · rw [set_fields_for, if_pos hlt]
      simp only [bitset.set, dif_pos hN]
      exact hfs
    · intro i
      rw [hbits i]
      by_cases hi : i = ⟨curr, hN⟩
      · subst hi
        show (_ || Function.update fields.bits ⟨curr, hN⟩ true ⟨curr, hN⟩) = _
        simp [hlt]
      · have hne : i.val ≠ curr := fun hc => hi (Fin.ext hc)
        show (_ || Function.update fields.bits ⟨curr, hN⟩ true i) = _
        rw [Function.update_noteq hi]
        congr 1
        apply decide_eq_decide.mpr
        constructor <;> intro h1 <;> omega

theorem set_fields_for_error (end_ : Nat) (hend : total_nvsec_sets < end_) :
    ∀ (d curr : Nat) (fields : bitset total_nvsec_sets), curr + d = total_nvsec_sets →
      set_fields_for fields curr end_ = .error exn.out_of_range := by
  intro d
  induction d with
  | zero =>
    intro curr fields h
    rw [set_fields_for, if_pos (by omega)]
    simp only [bitset.set, dif_neg (show ¬ curr < total_nvsec_sets by omega)]
  | succ d ih =>
    intro curr fields h
    have hN : curr < total_nvsec_sets := by omega
    rw [set_fields_for, if_pos (by omega)]
    simp only [bitset.set, dif_pos hN]
    exact ih (curr + 1) _ (by omega)

theorem set_fields_for_error_of_ge (end_ curr : Nat) (fields : bitset total_nvsec_sets)
    (h1 : curr < end_) (h2 : total_nvsec_sets ≤ curr) :
    set_fields_for fields curr end_ = .error exn.out_of_range := by
  rw [set_fields_for, if_pos h1]
  simp only [bitset.set, dif_neg (show ¬ curr < total_nvsec_sets by omega)]

/-- What the range constructor builds, in the three cases of its arguments. -/
theorem mk_range_ok (beg end_ : Nat) (h1 : beg ≤ end_) (h2 : end_ ≤ total_nvsec_sets) :
    ∃ pf, mk_range beg end_ = .ok pf ∧
      ∀ i : Fin total_nvsec_sets, pf.fields.bits i = decide (beg ≤ i.val ∧ i.val < end_) := by
  obtain ⟨fs, hfs, hbits⟩ :=
    set_fields_for_ok end_ h2 (end_ - beg) beg (bitset.zero.reset) (by omega)
  refine ⟨⟨fs⟩, ?_, ?_⟩
  · simp only [mk_range, set_fields, hfs]
  · intro i
    rw [hbits i]
    simp [bitset.reset]

theorem mk_range_empty (beg end_ : Nat) (h : end_ ≤ beg) :
    mk_range beg end_ = .ok ⟨bitset.zero.reset⟩ := by
  simp only [mk_range, set_fields, set_fields_for_ge _ beg end_ h]

theorem mk_range_error (beg end_ : Nat) (h1 : beg < end_) (h2 : total_nvsec_sets < end_) :
    mk_range beg end_ = .error exn.out_of_range := by
  have key : set_fields_for (bitset.zero.reset) beg end_ = .error exn.out_of_range := by
    by_cases hb : beg < total_nvsec_sets
    · exact set_fields_for_error end_ h2 (total_nvsec_sets - beg) beg _ (by omega)
    · exact set_fields_for_error_of_ge end_ beg _ h1 (by omega)
  simp only [mk_range, set_fields, key]

/-! ## Facts about the retry loop -/

/-- One turn of the loop that throws: the incremented count exceeds the bound. -/
theorem do_while_throw {R : Type} [has_off R] (f : Nat → R) (pf : page_field)
    (calls count : Nat) (h : count + 1 > max_try_secure_alloc) :
    secure_alloc_do_while f pf calls count =
      ⟨.thrown max_try_error, calls + 1, count + 1, []⟩ := by
  rw [secure_alloc_do_while]
  simp only [if_pos h, max_try_error]

/-- One turn of the loop that accepts. -/
theorem do_while_accept {R : Type} [has_off R] (f : Nat → R) (pf : page_field)
    (calls count : Nat) (h : ¬ count + 1 > max_try_secure_alloc)
    (hc : pf.check_ptr (has_off.off (f (calls + 1))) = true) :
    secure_alloc_do_while f pf calls count =
      ⟨.returned (f (calls + 1)), calls + 1, count + 1, []⟩ := by
  rw [secure_alloc_do_while]
  simp only [if_neg h, check_ptr_size_t_cast, hc, Bool.not_true, Bool.false_eq_true, if_false]

/-- One turn of the loop that rejects and goes round again. -/
theorem do_while_reject {R : Type} [has_off R] (f : Nat → R) (pf : page_field)
    (calls count : Nat) (h : ¬ count + 1 > max_try_secure_alloc)
    (hc : pf.check_ptr (has_off.off (f (calls + 1))) = false) :
    secure_alloc_do_while f pf calls count =
      secure_alloc_do_while f pf (calls + 1) (count + 1) := by
  rw [secure_alloc_do_while]
  simp only [if_neg h, check_ptr_size_t_cast, hc, Bool.not_false, if_true]

/-- First fit, from any loop state: if the next `k - 1` results are rejected, the
`k`-th is accepted and the count stays within the bound, the loop returns the `k`-th. -/
theorem do_while_first_fit {R : Type} [has_off R] (f : Nat → R) (pf : page_field) :
    ∀ (k calls count : Nat), count + (k + 1) ≤ max_try_secure_alloc →
      (∀ i, 1 ≤ i → i ≤ k → pf.check_ptr (has_off.off (f (calls + i))) = false) →
      pf.check_ptr (has_off.off (f (calls + (k + 1)))) = true →
      secure_alloc_do_while f pf calls count =
        ⟨.returned (f (calls + (k + 1))), calls + (k + 1), count + (k + 1), []⟩ := by
  intro k
  induction k with
  | zero =>
    intro calls count hb _ hk
    exact do_while_accept f pf calls count (by omega) hk
  | succ k ih =>
    intro calls count hb hrej hk
    rw [do_while_reject f pf calls count (by omega) (hrej 1 (by omega) (by omega))]
    have e : ∀ i, calls + 1 + i = calls + (i + 1) := by intro i; omega
    have := ih (calls + 1) (count + 1) (by omega)
      (fun i h1 h2 => by rw [e]; exact hrej (i + 1) (by omega) (by omega))
      (by rw [e]; exact hk)
    rw [this, e]
    congr 1
    omega

/-- Exhaustion, from any loop state: if every result is rejected while the count is
within the bound, the loop makes one invocation more than the tries left and throws. -/
theorem do_while_exhaust {R : Type} [has_off R] (f : Nat → R) (pf : page_field) :
    ∀ (d calls count : Nat), count + d = max_try_secure_alloc →
      (∀ i, 1 ≤ i → i ≤ d → pf.check_ptr (has_off.off (f (calls + i))) = false) →
      secure_alloc_do_while f pf calls count =
        ⟨.thrown max_try_error, calls + d + 1, max_try_secure_alloc + 1, []⟩ := by
  intro d
  induction d with
  | zero =>
    intro calls count hb _
    rw [do_while_throw f pf calls count (by omega)]
    congr 1
    omega
  | succ d ih =>
    intro calls count hb hrej
    rw [do_while_reject f pf calls count (by omega) (hrej 1 (by omega) (by omega))]
    have e : ∀ i, calls + 1 + i = calls + (i + 1) := by intro i; omega
    rw [ih (calls + 1) (count + 1) (by omega)
      (fun i h1 h2 => by rw [e]; exact hrej (i + 1) (by omega) (by omega))]
    congr 1
    omega

theorem do_while_post {R : Type} [has_off R] (f : Nat → R) (pf : page_field) :
    ∀ (d calls count : Nat), count + d = max_try_secure_alloc →
      loop_post f pf calls count (secure_alloc_do_while f pf calls count) := by
  intro d
  induction d with
  | zero =>
    intro calls count hb
    rw [do_while_throw f pf calls count (by omega)]
    exact ⟨rfl, by simp, by simp; omega, by simp; omega, Or.inl ⟨rfl, by simp; omega⟩⟩
  | succ d ih =>
    intro calls count hb
    cases hc : pf.check_ptr (has_off.off (f (calls + 1))) with
    | false =>
      rw [do_while_reject f pf calls count (by omega) hc]
      have p := ih (calls + 1) (count + 1) (by omega)
      exact ⟨p.cout_nil, by have := p.count_gt; omega, p.count_le,
        by have := p.calls_eq; omega, p.ended⟩
    | true =>
      rw [do_while_accept f pf calls count (by omega) hc]
      exact ⟨rfl, by simp, by simp; omega, by simp; omega,
        Or.inr ⟨rfl, by simp; omega, hc⟩⟩

theorem do_while_post_zero {R : Type} [has_off R] (f : Nat → R) (pf : page_field) :
    loop_post f pf 0 0 (secure_alloc_do_while f pf 0 0) :=
  do_while_post f pf max_try_secure_alloc 0 0 (by omega)

theorem count_pos_iff {N : Nat} (b : bitset N) : 0 < b.count ↔ ∃ i, b.bits i = true := by
  unfold bitset.count
  rw [List.countP_pos_iff]
  constructor
  · rintro ⟨i, _, hi⟩
    exact ⟨i, hi⟩
  · rintro ⟨i, hi⟩
    exact ⟨i, List.mem_finRange i, hi⟩

theorem count_pos_of_check_ptr (pf : page_field) (o : Nat) (h : pf.check_ptr o = true) :
    0 < pf.fields.count :=
  (count_pos_iff pf.fields).mpr ⟨_, h⟩

theorem secure_alloc_empty {R : Type} [has_off R] (g : globals) (f : Nat → R)
    (pf : page_field) (h : pf.fields.count = 0) :
    secure_alloc false g f pf = ⟨.assert_failed, 0, 0, []⟩ := by
  unfold secure_alloc
  rw [if_pos ⟨rfl, by omega⟩]

/-- The assertion lets the call through: it is compiled out or it holds. -/
theorem guard_passes (NDEBUG : Bool) (pf : page_field)
    (h : NDEBUG = true ∨ 0 < pf.fields.count) :
    ¬ (NDEBUG = false ∧ ¬ (pf.fields.count > 0)) := by
  rintro ⟨h1, h2⟩
  rcases h with h | h
  · rw [h1] at h
    exact Bool.false_ne_true h
  · exact h2 h

theorem secure_alloc_returned {R : Type} [has_off R] (NDEBUG : Bool) (g : globals)
    (f : Nat → R) (pf : page_field) (res : R) (c n : Nat)
    (h : NDEBUG = true ∨ 0 < pf.fields.count)
    (hl : secure_alloc_do_while f pf 0 0 = ⟨.returned res, c, n, []⟩) :
    secure_alloc NDEBUG g f pf =
      ⟨.returned res, c, n, if g.verbose_output_alloc then [⟨n, has_off.off res⟩] else []⟩ := by
  unfold secure_alloc
  rw [if_neg (guard_passes NDEBUG pf h)]
  simp only [hl]
  cases g.verbose_output_alloc <;> simp

theorem secure_alloc_thrown {R : Type} [has_off R] (NDEBUG : Bool) (g : globals)
    (f : Nat → R) (pf : page_field) (e : exn) (c n : Nat)
    (h : NDEBUG = true ∨ 0 < pf.fields.count)
    (hl : secure_alloc_do_while f pf 0 0 = ⟨.thrown e, c, n, []⟩) :
    secure_alloc NDEBUG g f pf = ⟨.thrown e, c, n, []⟩ := by
  unfold secure_alloc
  rw [if_neg (guard_passes NDEBUG pf h)]
  simp only [hl]

/-- The three ways a call can go: stopped by the assertion, thrown out of the loop, or
returned from it with the result of the last invocation. -/
theorem secure_alloc_run {R : Type} [has_off R] (NDEBUG : Bool) (g : globals)
    (f : Nat → R) (pf : page_field) :
    (NDEBUG = false ∧ pf.fields.count = 0 ∧
        secure_alloc NDEBUG g f pf = ⟨.assert_failed, 0, 0, []⟩) ∨
      (secure_alloc NDEBUG g f pf = ⟨.thrown max_try_error,
          (secure_alloc_do_while f pf 0 0).calls, (secure_alloc_do_while f pf 0 0).count,
          []⟩) ∨
      (secure_alloc NDEBUG g f pf =
        ⟨.returned (f (secure_alloc_do_while f pf 0 0).calls),
          (secure_alloc_do_while f pf 0 0).calls, (secure_alloc_do_while f pf 0 0).count,
          if g.verbose_output_alloc then
            [⟨(secure_alloc_do_while f pf 0 0).count,
              has_off.off (f (secure_alloc_do_while f pf 0 0).calls)⟩]
          else []⟩ ∧
        pf.check_ptr (has_off.off (f (secure_alloc_do_while f pf 0 0).calls)) = true) := by
  by_cases hg : NDEBUG = true ∨ 0 < pf.fields.count
  · have p := do_while_post_zero f pf
    have hrun : secure_alloc_do_while f pf 0 0 =
        ⟨(secure_alloc_do_while f pf 0 0).result, (secure_alloc_do_while f pf 0 0).calls,
          (secure_alloc_do_while f pf 0 0).count, []⟩ := by
      have hc := p.cout_nil
      revert hc
      cases secure_alloc_do_while f pf 0 0 with
      | mk result calls count cout =>
        intro hc
        simp only at hc
        rw [hc]
    rcases p.ended with ⟨ht, _⟩ | ⟨hr, _, hsec⟩
    · rw [ht] at hrun
      exact Or.inr (Or.inl (secure_alloc_thrown NDEBUG g f pf _ _ _ hg hrun))
    · rw [hr] at hrun
      exact Or.inr (Or.inr ⟨secure_alloc_returned NDEBUG g f pf _ _ _ hg hrun, hsec⟩)
  · have h1 : NDEBUG = false := by
      cases NDEBUG with
      | false => rfl
      | true => exact absurd (Or.inl rfl) hg
    have h2 : pf.fields.count = 0 := by
      have : ¬ 0 < pf.fields.count := fun h => hg (Or.inr h)
      omega
    subst h1
    exact Or.inl ⟨rfl, h2, secure_alloc_empty g f pf h2⟩

/-- The whole call when the `k`-th result is the first accepted one. -/
theorem secure_alloc_first {R : Type} [has_off R] (NDEBUG : Bool) (g : globals)
    (f : Nat → R) (pf : page_field) (k : Nat) (hk1 : 1 ≤ k)
    (hk2 : k ≤ max_try_secure_alloc)
    (hrej : ∀ i, 1 ≤ i → i < k → pf.check_ptr (has_off.off (f i)) = false)
    (hacc : pf.check_ptr (has_off.off (f k)) = true) :
    secure_alloc NDEBUG g f pf =
      ⟨.returned (f k), k, k,
        if g.verbose_output_alloc then [⟨k, has_off.off (f k)⟩] else []⟩ := by
  obtain ⟨j, rfl⟩ : ∃ j, k = j + 1 := ⟨k - 1, by omega⟩
  have hl := do_while_first_fit f pf j 0 0 (by omega)
    (fun i h1 h2 => by rw [Nat.zero_add]; exact hrej i h1 (by omega))
    (by rw [Nat.zero_add]; exact hacc)
  simp only [Nat.zero_add] at hl
  exact secure_alloc_returned NDEBUG g f pf _ _ _
    (Or.inr (count_pos_of_check_ptr pf _ hacc)) hl

/-- The whole call when the assertion lets it through and the first
`max_try_secure_alloc` results are all rejected. -/
theorem secure_alloc_never {R : Type} [has_off R] (NDEBUG : Bool) (g : globals)
    (f : Nat → R) (pf : page_field) (h : NDEBUG = true ∨ 0 < pf.fields.count)
    (hrej : ∀ i, 1 ≤ i → i ≤ max_try_secure_alloc →
      pf.check_ptr (has_off.off (f i)) = false) :
    secure_alloc NDEBUG g f pf =
      ⟨.thrown max_try_error, max_try_secure_alloc + 1, max_try_secure_alloc + 1, []⟩ := by
  have hl := do_while_exhaust f pf max_try_secure_alloc 0 0 (by omega)
    (fun i h1 h2 => by rw [Nat.zero_add]; exact hrej i h1 h2)
  simp only [Nat.zero_add] at hl
  exact secure_alloc_thrown NDEBUG g f pf _ _ _ h hl

theorem page_field_ext (p q : page_field) (h : ∀ i, p.fields.bits i = q.fields.bits i) :
    p = q := by
  cases p with | mk pfields =>
  cases q with | mk qfields =>
  cases pfields with | mk pbits =>
  cases qfields with | mk qbits =>
  have : pbits = qbits := funext h
  rw [this]

theorem mk_range_eq (beg end_ : Nat) (h1 : beg ≤ end_) (h2 : end_ ≤ total_nvsec_sets) :
    mk_range beg end_ = .ok (range_field beg end_) := by
  obtain ⟨pf, hpf, hbits⟩ := mk_range_ok beg end_ h1 h2
  rw [hpf, page_field_ext pf (range_field beg end_) hbits]

theorem mk_range_eq_of_ge (beg end_ : Nat) (h : end_ ≤ beg) :
    mk_range beg end_ = .ok (range_field beg end_) := by
  have e : (⟨bitset.zero.reset⟩ : page_field) = range_field beg end_ :=
    page_field_ext _ _ (fun i => by
      show false = decide (beg ≤ i.val ∧ i.val < end_)
      exact (decide_eq_false (by omega)).symm)
  rw [mk_range_empty beg end_ h, e]

theorem mk_default_eq : mk_default = .ok (range_field 0 128) :=
  mk_range_eq 0 128 (by decide) (by decide)

theorem check_ptr_range_field (beg end_ o : Nat) :
    (range_field beg end_).check_ptr o =
      decide (beg ≤ (o >>> page_shift) % total_nvsec_sets ∧
        (o >>> page_shift) % total_nvsec_sets < end_) := rfl

/-! ## Properties of the specification -/

/-- C1: whenever `secure_alloc` returns a result `res` instead of failing, the placement
of `res` is secure: `pf.check_ptr (res.off)` is true, that is, slot
`(res.off >> 12) mod 256` is set in `pf.fields`. This holds in either build. -/
theorem secure_alloc_returns_secure {R : Type} [has_off R] (NDEBUG : Bool) (g : globals)
    (f : Nat → R) (pf : page_field) (res : R)
    (h : (secure_alloc NDEBUG g f pf).result = .returned res) :
    pf.check_ptr (has_off.off res) = true ∧
      pf.fields.index ((has_off.off res >>> 12) % 256) (slot_lt _) = true := by
  have key : pf.check_ptr (has_off.off res) = true := by
    rcases secure_alloc_run NDEBUG g f pf with ⟨_, _, e⟩ | e | ⟨e, hsec⟩
    · rw [e] at h
      cases h
    · rw [e] at h
      cases h
    · rw [e] at h
      simp only [outcome.returned.injEq] at h
      rw [← h]
      exact hsec
  exact ⟨key, key⟩

/-- C1, at an input: the default field and a callable whose first result is at offset
5000 (page 1); the call returns and the returned placement is secure. -/
theorem secure_alloc_returns_secure_witness :
    mk_default = .ok (range_field 0 128) ∧
    (secure_alloc false globals.initial (fun _ => (⟨5000⟩ : placement)) (range_field 0 128)).result
        = .returned ⟨5000⟩ ∧
      (range_field 0 128).check_ptr 5000 = true ∧
      (range_field 0 128).fields.index ((5000 >>> 12) % 256) (slot_lt _) = true :=
  have h : (secure_alloc false globals.initial (fun _ => (⟨5000⟩ : placement))
      (range_field 0 128)).result = .returned ⟨5000⟩ := by
    rw [secure_alloc_first false globals.initial (fun _ => (⟨5000⟩ : placement)) (range_field 0 128) 1
      (by decide) (by decide) (fun i h1 h2 => by omega) (by decide)]
  ⟨mk_default_eq, h, secure_alloc_returns_secure false globals.initial (fun _ => (⟨5000⟩ : placement))
    (range_field 0 128) ⟨5000⟩ h⟩

/-- C2: first-fit acceptance. If the placements of the callable first satisfy
`pf.check_ptr` at call `k` (counted from 1) and `k ≤ max_try_secure_alloc = 1048576`,
then `secure_alloc` returns exactly the result of the `k`-th call, has invoked the
callable exactly `k` times, its attempt count is exactly `k`, and that is the count it
reports when it reports. This holds in either build. -/
theorem secure_alloc_first_fit {R : Type} [has_off R] (NDEBUG : Bool) (g : globals)
    (f : Nat → R) (pf : page_field) (k : Nat) (hk1 : 1 ≤ k)
    (hk2 : k ≤ total_nvsec_sets <<< page_shift)
    (hrej : ∀ i, 1 ≤ i → i < k → pf.check_ptr (has_off.off (f i)) = false)
    (hacc : pf.check_ptr (has_off.off (f k)) = true) :
    total_nvsec_sets <<< page_shift = 1048576 ∧
      (secure_alloc NDEBUG g f pf).result = .returned (f k) ∧
      (secure_alloc NDEBUG g f pf).calls = k ∧
      (secure_alloc NDEBUG g f pf).count = k ∧
      (secure_alloc NDEBUG g f pf).cout =
        if g.verbose_output_alloc then [⟨k, has_off.off (f k)⟩] else [] := by
  rw [secure_alloc_first NDEBUG g f pf k hk1 hk2 hrej hacc]
  exact ⟨by decide, rfl, rfl, rfl, rfl⟩

/-- C2, at the two inputs of the specification: the field `[150, 160)` with the `i`-th
call returning offset `i * 4096` gives 150 attempts and offset 614400; the default field
with every call returning offset 5000 gives 1 attempt. -/
theorem secure_alloc_first_fit_witness :
    (mk_range 150 160 = .ok (range_field 150 160) ∧
      (secure_alloc false (set_alloc_print true globals.initial)
          (fun i => (⟨i * 4096⟩ : placement)) (range_field 150 160)).result
        = .returned ⟨614400⟩ ∧
      (secure_alloc false (set_alloc_print true globals.initial)
          (fun i => (⟨i * 4096⟩ : placement)) (range_field 150 160)).calls = 150 ∧
      (secure_alloc false (set_alloc_print true globals.initial)
          (fun i => (⟨i * 4096⟩ : placement)) (range_field 150 160)).count = 150 ∧
      (secure_alloc false (set_alloc_print true globals.initial)
          (fun i => (⟨i * 4096⟩ : placement)) (range_field 150 160)).cout
        = [⟨150, 614400⟩]) ∧
    (mk_default = .ok (range_field 0 128) ∧
      (secure_alloc false globals.initial (fun _ => (⟨5000⟩ : placement)) (range_field 0 128)).result
        = .returned ⟨5000⟩ ∧
      (secure_alloc false globals.initial (fun _ => (⟨5000⟩ : placement)) (range_field 0 128)).count
        = 1) :=
  ⟨⟨mk_range_eq 150 160 (by decide) (by decide),
    (secure_alloc_first_fit false (set_alloc_print true globals.initial)
      (fun i => (⟨i * 4096⟩ : placement)) (range_field 150 160) 150 (by decide) (by decide)
      (fun i h1 h2 => by
        rw [check_ptr_range_field]
        simp only [has_off.off, page_shift, total_nvsec_sets, Nat.shiftRight_eq_div_pow,
          decide_eq_false_iff_not]
        omega)
      (by decide)).2⟩,
   ⟨mk_default_eq,
    (secure_alloc_first_fit false globals.initial (fun _ => (⟨5000⟩ : placement))
      (range_field 0 128) 1 (by decide) (by decide) (fun i h1 h2 => by omega)
      (by decide)).2.1,
    (secure_alloc_first_fit false globals.initial (fun _ => (⟨5000⟩ : placement))
      (range_field 0 128) 1 (by decide) (by decide) (fun i h1 h2 => by omega)
      (by decide)).2.2.2.1⟩⟩

/-- C3: at the input of the specification (field `[0, 1)`, every call returning offset
4096, which the field never accepts) `secure_alloc` throws the `std::runtime_error`, and
when it does the callable has been invoked `max_try_secure_alloc + 1 = 1048577` times,
one more than the 1048576 of the claim; the same in either build. -/
theorem secure_alloc_exhaustion_at_input :
    mk_range 0 1 = .ok (range_field 0 1) ∧
      0 < (range_field 0 1).fields.count ∧
      (range_field 0 1).check_ptr 4096 = false ∧
      (secure_alloc false globals.initial (fun _ => (⟨4096⟩ : placement))
        (range_field 0 1)).result
          = .thrown (.runtime_error "Secure alloc reached max try.") ∧
      (secure_alloc false globals.initial (fun _ => (⟨4096⟩ : placement))
        (range_field 0 1)).calls = 1048577 ∧
      (secure_alloc false globals.initial (fun _ => (⟨4096⟩ : placement))
        (range_field 0 1)).calls ≠ total_nvsec_sets <<< page_shift ∧
      (secure_alloc true globals.initial (fun _ => (⟨4096⟩ : placement))
        (range_field 0 1)).result
          = .thrown (.runtime_error "Secure alloc reached max try.") ∧
      (secure_alloc true globals.initial (fun _ => (⟨4096⟩ : placement))
        (range_field 0 1)).calls = 1048577 := by
  have hpos : 0 < (range_field 0 1).fields.count :=
    (count_pos_iff _).mpr ⟨⟨0, by decide⟩, by decide⟩
  have hrej : (range_field 0 1).check_ptr 4096 = false := by decide
  rw [secure_alloc_never false globals.initial (fun _ => (⟨4096⟩ : placement))
      (range_field 0 1) (Or.inr hpos) (fun _ _ _ => hrej),
    secure_alloc_never true globals.initial (fun _ => (⟨4096⟩ : placement))
      (range_field 0 1) (Or.inr hpos) (fun _ _ _ => hrej)]
  exact ⟨mk_range_eq 0 1 (by decide) (by decide), hpos, hrej, rfl, by decide, by decide,
    rfl, by decide⟩

/-- C5, as stated, fails: `page_field(10, 5)` has `begin > end`, yet the constructor
raises no error and produces a page field, the one with no slot set. -/
theorem mk_range_10_5_succeeds :
    (10 > 5 ∨ 5 > total_nvsec_sets) ∧
      (∀ e, mk_range 10 5 ≠ .error e) ∧
      ∃ pf, mk_range 10 5 = .ok pf ∧ ∀ i, pf.fields.bits i = false := by
  rw [mk_range_empty 10 5 (by decide)]
  exact ⟨Or.inl (by decide), fun e h => (by cases h), _, rfl, fun _ => rfl⟩

/-- C5, amended: `page_field(begin, end)` fails, with the `std::out_of_range` of
`bitset::set`, exactly for the pairs with `begin < end` and `end > N` (`N = 256`), and
then no page field is produced; for every other pair, among them every `begin ≥ end`,
no error is raised and the field with exactly the slots of `[begin, end)` is produced,
which is the empty field when `begin ≥ end`. -/
theorem mk_range_fails_iff (beg end_ : Nat) :
    total_nvsec_sets = 256 ∧
      (beg < end_ ∧ total_nvsec_sets < end_ →
        mk_range beg end_ = .error exn.out_of_range ∧ ∀ pf, mk_range beg end_ ≠ .ok pf) ∧
      (¬ (beg < end_ ∧ total_nvsec_sets < end_) →
        (∀ e, mk_range beg end_ ≠ .error e) ∧
        ∃ pf, mk_range beg end_ = .ok pf ∧
          ∀ i : Fin total_nvsec_sets,
            pf.fields.bits i = decide (beg ≤ i.val ∧ i.val < end_)) := by
  refine ⟨rfl, ?_, ?_⟩
  · rintro ⟨h1, h2⟩
    rw [mk_range_error beg end_ h1 h2]
    exact ⟨rfl, fun pf h => (by cases h)⟩
  · intro h
    have e : mk_range beg end_ = .ok (range_field beg end_) := by
      by_cases hle : end_ ≤ beg
      · exact mk_range_eq_of_ge beg end_ hle
      · exact mk_range_eq beg end_ (by omega) (by omega)
    rw [e]
    exact ⟨fun e h => (by cases h), _, rfl, fun _ => rfl⟩

/-- C5 amended, at inputs: `page_field(250, 260)` throws; `page_field(10, 5)` and
`page_field(300, 300)` do not and give a field. -/
theorem mk_range_fails_iff_witness :
    mk_range 250 260 = .error exn.out_of_range ∧
      (∃ pf, mk_range 10 5 = .ok pf ∧
        ∀ i : Fin total_nvsec_sets, pf.fields.bits i = decide (10 ≤ i.val ∧ i.val < 5)) ∧
      (∀ e, mk_range 300 300 ≠ .error e) :=
  ⟨((mk_range_fails_iff 250 260).2.1 ⟨by decide, by decide⟩).1,
   ((mk_range_fails_iff 10 5).2.2 (by decide)).2,
   ((mk_range_fails_iff 300 300).2.2 (by decide)).1⟩

/-- C6: for `begin < end ≤ N` (`N = 256`) the constructor `page_field(begin, end)`
produces a field for which `check_ptr(o)` is true if and only if
`begin ≤ (o >> 12) mod 256 < end`, for every offset `o`; the bitset has exactly the
slots of `[begin, end)` set and all others clear. -/
theorem mk_range_check_ptr (beg end_ : Nat) (h1 : beg < end_)
    (h2 : end_ ≤ total_nvsec_sets) :
    total_nvsec_sets = 256 ∧
      ∃ pf, mk_range beg end_ = .ok pf ∧
        (∀ o : Nat, pf.check_ptr o = true ↔
          beg ≤ (o >>> 12) % 256 ∧ (o >>> 12) % 256 < end_) ∧
        (∀ i : Fin total_nvsec_sets, pf.fields.bits i = true ↔ beg ≤ i.val ∧ i.val < end_) := by
  refine ⟨rfl, range_field beg end_, mk_range_eq beg end_ (by omega) h2, ?_, ?_⟩
  · intro o
    rw [check_ptr_range_field]
    exact decide_eq_true_iff
  · intro i
    exact decide_eq_true_iff

/-- C6, at an input: the field `[150, 160)` accepts offset `150 * 4096` and rejects
offset `149 * 4096`. -/
theorem mk_range_check_ptr_witness :
    150 < 160 ∧ 160 ≤ total_nvsec_sets ∧
      ∃ pf, mk_range 150 160 = .ok pf ∧
        pf.check_ptr (150 * 4096) = true ∧ pf.check_ptr (149 * 4096) = false := by
  obtain ⟨pf, h, hc, _⟩ := (mk_range_check_ptr 150 160 (by decide) (by decide)).2
  refine ⟨by decide, by decide, pf, h, (hc _).mpr (by decide), ?_⟩
  cases hf : pf.check_ptr (149 * 4096) with
  | false => rfl
  | true => exact absurd ((hc _).mp hf) (by decide)

/-- C7: the default constructor produces a field for which `check_ptr(o)` is true
exactly when `(o >> 12) mod 256` is in `[0, 128)` and false otherwise: exactly the lower
half `[0, N/2)` of the slots is marked. -/
theorem mk_default_check_ptr :
    ∃ pf, mk_default = .ok pf ∧
      (∀ o : Nat, pf.check_ptr o = decide ((o >>> 12) % 256 < 128)) ∧
      (∀ i : Fin total_nvsec_sets,
        pf.fields.bits i = decide (i.val < total_nvsec_sets / 2)) := by
  refine ⟨range_field 0 128, mk_default_eq, ?_, ?_⟩
  · intro o
    rw [check_ptr_range_field]
    exact decide_eq_decide.mpr ⟨fun h => h.2, fun h => ⟨Nat.zero_le _, h⟩⟩
  · intro i
    exact decide_eq_decide.mpr ⟨fun h => h.2, fun h => ⟨Nat.zero_le _, h⟩⟩

/-- C8: for every page field and all offsets `o1`, `o2`, equal slots
`(o >> page_shift) mod N` give equal `check_ptr`; and `check_ptr` is defined at every
offset, the position it reads being below `N`, where it is the bit of the field at that
position. -/
theorem check_ptr_quantized (pf : page_field) (o1 o2 : Nat) :
    ((o1 >>> page_shift) % total_nvsec_sets = (o2 >>> page_shift) % total_nvsec_sets →
        pf.check_ptr o1 = pf.check_ptr o2) ∧
      ∃ h : (o1 >>> page_shift) % total_nvsec_sets < total_nvsec_sets,
        pf.check_ptr o1 = pf.fields.index ((o1 >>> page_shift) % total_nvsec_sets) h :=
  ⟨check_ptr_congr pf o1 o2, slot_lt _, rfl⟩

/-- C8, at an input: offsets 5000 and `4096 + 3 * 2 ^ 20 + 17` are both on slot 1 and
get the same answer from the default field. -/
theorem check_ptr_quantized_witness :
    (5000 >>> page_shift) % total_nvsec_sets
        = ((4096 + 3 * 2 ^ 20 + 17) >>> page_shift) % total_nvsec_sets ∧
      (range_field 0 128).check_ptr 5000
        = (range_field 0 128).check_ptr (4096 + 3 * 2 ^ 20 + 17) :=
  ⟨by decide,
   (check_ptr_quantized (range_field 0 128) 5000 (4096 + 3 * 2 ^ 20 + 17)).1 (by decide)⟩

/-- C9: with the output modelled as the list of reports written: when
`verbose_output_alloc` is set, a call that returns has written exactly one report,
holding the attempt count and the offset of the returned result; when it is clear, which
it is initially, nothing is written whether the call returns or fails; and a call that
fails writes nothing even when the switch is set. This holds in either build. -/
theorem secure_alloc_reports {R : Type} [has_off R] (NDEBUG : Bool) (g : globals)
    (f : Nat → R) (pf : page_field) :
    globals.initial.verbose_output_alloc = false ∧
      (g.verbose_output_alloc = true →
        ∀ res, (secure_alloc NDEBUG g f pf).result = .returned res →
          (secure_alloc NDEBUG g f pf).cout
            = [⟨(secure_alloc NDEBUG g f pf).count, has_off.off res⟩] ∧
          (secure_alloc NDEBUG g f pf).count = (secure_alloc NDEBUG g f pf).calls) ∧
      (g.verbose_output_alloc = false → (secure_alloc NDEBUG g f pf).cout = []) ∧
      ((∀ res, (secure_alloc NDEBUG g f pf).result ≠ .returned res) →
        (secure_alloc NDEBUG g f pf).cout = []) := by
  have p := do_while_post_zero f pf
  have hcalls : (secure_alloc_do_while f pf 0 0).calls
      = (secure_alloc_do_while f pf 0 0).count := by
    have := p.calls_eq
    omega
  rcases secure_alloc_run NDEBUG g f pf with ⟨_, _, e⟩ | e | ⟨e, _⟩
  · rw [e]
    exact ⟨rfl, fun _ res h => (by cases h), fun _ => rfl, fun _ => rfl⟩
  · rw [e]
    exact ⟨rfl, fun _ res h => (by cases h), fun _ => rfl, fun _ => rfl⟩
  · rw [e]
    refine ⟨rfl, ?_, ?_, ?_⟩
    · intro hv res hres
      simp only [outcome.returned.injEq] at hres
      subst hres
      exact ⟨by simp only [hv, if_true], hcalls.symm⟩
    · intro hv
      simp only [hv, Bool.false_eq_true, if_false]
    · intro hno
      exact absurd rfl (hno _)

/-- C9, at inputs: with the switch set by `set_alloc_print(true)`, the call on the field
`[150, 160)` that returns at the 150th attempt writes the one report `(150, 614400)`; the
call on the field `[0, 1)` that is never satisfied fails and writes nothing; with the
initial switch the first call writes nothing. -/
theorem secure_alloc_reports_witness :
    (secure_alloc false (set_alloc_print true globals.initial)
        (fun i => (⟨i * 4096⟩ : placement)) (range_field 150 160)).cout = [⟨150, 614400⟩] ∧
      (secure_alloc false (set_alloc_print true globals.initial)
        (fun _ => (⟨4096⟩ : placement)) (range_field 0 1)).cout = [] ∧
      (secure_alloc false globals.initial
        (fun i => (⟨i * 4096⟩ : placement)) (range_field 150 160)).cout = [] := by
  have hfirst : ∀ g : globals, secure_alloc false g (fun i => (⟨i * 4096⟩ : placement))
      (range_field 150 160) = ⟨.returned ⟨614400⟩, 150, 150,
        if g.verbose_output_alloc then [⟨150, 614400⟩] else []⟩ := fun g =>
    secure_alloc_first false g (fun i => (⟨i * 4096⟩ : placement)) (range_field 150 160) 150
      (by decide) (by decide)
      (fun i h1 h2 => by
        rw [check_ptr_range_field]
        simp only [has_off.off, page_shift, total_nvsec_sets, Nat.shiftRight_eq_div_pow,
          decide_eq_false_iff_not]
        omega)
      (by decide)
  have hnever : secure_alloc false (set_alloc_print true globals.initial)
      (fun _ => (⟨4096⟩ : placement)) (range_field 0 1)
        = ⟨.thrown max_try_error, max_try_secure_alloc + 1, max_try_secure_alloc + 1, []⟩ :=
    secure_alloc_never false _ _ _
      (Or.inr ((count_pos_iff _).mpr ⟨⟨0, by decide⟩, by decide⟩))
      (fun _ _ _ => by decide)
  refine ⟨?_, ?_, ?_⟩
  · have h := ((secure_alloc_reports false (set_alloc_print true globals.initial)
      (fun i => (⟨i * 4096⟩ : placement)) (range_field 150 160)).2.1 rfl ⟨614400⟩
      (by rw [hfirst])).1
    rw [h, hfirst]
    rfl
  · exact (secure_alloc_reports false (set_alloc_print true globals.initial)
      (fun _ => (⟨4096⟩ : placement)) (range_field 0 1)).2.2.2
      (fun res h => by rw [hnever] at h; cases h)
  · exact (secure_alloc_reports false globals.initial
      (fun i => (⟨i * 4096⟩ : placement)) (range_field 150 160)).2.2.1 rfl

/-- C10: for every page field and every callable the retry loop of `secure_alloc` ends,
either returning a result or throwing the exhaustion error, having invoked the callable
at most `max_try_secure_alloc + 1 = 1048577` times; and a secure placement first produced
by invocation number `max_try_secure_alloc + 1` is not returned: the call throws. This
holds in either build. -/
theorem secure_alloc_bounded {R : Type} [has_off R] (NDEBUG : Bool) (g : globals)
    (f : Nat → R) (pf : page_field) :
    max_try_secure_alloc + 1 = 1048577 ∧
      ((∃ res, (secure_alloc_do_while f pf 0 0).result = .returned res) ∨
        (secure_alloc_do_while f pf 0 0).result
          = .thrown (.runtime_error "Secure alloc reached max try.")) ∧
      (secure_alloc_do_while f pf 0 0).calls ≤ max_try_secure_alloc + 1 ∧
      (secure_alloc NDEBUG g f pf).calls ≤ max_try_secure_alloc + 1 ∧
      ((∀ i, 1 ≤ i → i ≤ max_try_secure_alloc →
          pf.check_ptr (has_off.off (f i)) = false) →
        pf.check_ptr (has_off.off (f (max_try_secure_alloc + 1))) = true →
        (secure_alloc NDEBUG g f pf).result
          = .thrown (.runtime_error "Secure alloc reached max try.") ∧
        (secure_alloc NDEBUG g f pf).calls = max_try_secure_alloc + 1 ∧
        ∀ res, (secure_alloc NDEBUG g f pf).result ≠ .returned res) := by
  have p := do_while_post_zero f pf
  have hcalls : (secure_alloc_do_while f pf 0 0).calls
      = (secure_alloc_do_while f pf 0 0).count := by
    have := p.calls_eq
    omega
  have hle : (secure_alloc_do_while f pf 0 0).calls ≤ max_try_secure_alloc + 1 := by
    rw [hcalls]
    exact p.count_le
  refine ⟨by decide, ?_, hle, ?_, ?_⟩
  · rcases p.ended with ⟨ht, _⟩ | ⟨hr, _, _⟩
    · exact Or.inr ht
    · exact Or.inl ⟨_, hr⟩
  · rcases secure_alloc_run NDEBUG g f pf with ⟨_, _, e⟩ | e | ⟨e, _⟩
    · rw [e]
      exact Nat.zero_le _
    · rw [e]
      exact hle
    · rw [e]
      exact hle
  · intro hrej hacc
    rw [secure_alloc_never NDEBUG g f pf (Or.inr (count_pos_of_check_ptr pf _ hacc)) hrej]
    exact ⟨rfl, rfl, fun res h => (by cases h)⟩

/-- C10, at an input: the field `[0, 1)` and a callable whose invocation number 1048577
is the first to return a secure placement (offset 0), all others returning offset 4096:
the call throws after 1048577 invocations and does not return that placement. -/
theorem secure_alloc_bounded_witness :
    (secure_alloc false globals.initial
        (fun i => (if i = 1048577 then ⟨0⟩ else ⟨4096⟩ : placement)) (range_field 0 1)).result
        = .thrown (.runtime_error "Secure alloc reached max try.") ∧
      (secure_alloc false globals.initial
        (fun i => (if i = 1048577 then ⟨0⟩ else ⟨4096⟩ : placement)) (range_field 0 1)).calls
        = 1048577 ∧
      (range_field 0 1).check_ptr 0 = true :=
  have h := (secure_alloc_bounded false globals.initial
      (fun i => (if i = 1048577 then ⟨0⟩ else ⟨4096⟩ : placement)) (range_field 0 1)).2.2.2.2
      (fun i h1 h2 => by
        have hi : i ≠ 1048577 := by
          rw [max_try_secure_alloc_eq] at h2
          omega
        simp only [if_neg hi]
        decide)
      (by decide)
  ⟨h.1, h.2.1, by decide⟩

end nvleak
